import Mathlib

/-!
Verification development for the enkodo code generator
(`cmd/enkodo/enkodo.go`): a schema-driven generator that, for each Go
struct whose fields carry an `enkodo:"..."` tag, emits paired
`MarshalEnkodo` / `UnmarshalEnkodo` procedures over a positional
(tag-free) wire format.

Modelling conventions, shared by the whole file:

* Go strings are modelled as `List Char` (`GoStr`): the source
  manipulates them by byte indexing (`s[0]`), slicing (`s[2:]`),
  length, and `strings.Trim`, all of which map directly onto list
  operations.  `str` converts a Lean string literal.
* Each `fmt.Fprintf` line of generated Go code is modelled as one
  constructor of the `Stmt` inductive, carrying exactly the varying
  parts of the corresponding format string; loop bodies (the text
  between `{` and the matching `}` emitted by the source) become the
  `body` argument of `forRange` / `forCount`, reifying the block
  structure that the flat text carries via braces.
* Indentation (`identCount`, `dent`) affects only whitespace in the
  emitted text, so `Stmt` does not record it; the `identCount`
  parameter is kept on the emitters to mirror the Go signatures.
* The Go `map[string]TypeConverter` registry is modelled as an
  association list queried with `find?`; the `_declared`
  `map[string]string` scope tracker is modelled as the list of its
  keys (its values are written but never read by the source).
-/

namespace Enkodo

/-- Go strings, as lists of characters. -/
abbrev GoStr := List Char

/-- Conversion from a Lean string literal to a modelled Go string. -/
def str (s : String) : GoStr := s.data

/-- `strings.Trim(s, cutset)`: drop characters of `cutset` from both ends. -/
def goTrim (cutset : GoStr) (s : GoStr) : GoStr :=
  ((s.dropWhile (· ∈ cutset)).reverse.dropWhile (· ∈ cutset)).reverse

/-- The `TypeConverter` interface (enkodo.go lines 47-66): a Go type name,
the name of the enkodo codec function for it, the encode-side and
decode-side source-text transforms, and the packages its generated code
needs to import. -/
structure Converter where
  name : GoStr
  enkodoFunction : GoStr
  enc : GoStr → GoStr
  dec : GoStr → GoStr
  imports : List GoStr

/-- `NewBasicTypeConverter` (lines 95-120): `Enc` is the identity,
`Dec` returns the empty string (no modification needed), no imports. -/
def NewBasicTypeConverter (gotype enkodoFunction : String) : Converter :=
  { name := str gotype
    enkodoFunction := str enkodoFunction
    enc := fun val => val
    dec := fun _ => []
    imports := [] }

/-- `ErrorTypeConverter` (lines 68-88): encodes an error as its message
string (`val.Error()`), decodes with `errors.New(val)`, and needs the
`errors` package. -/
def ErrorTypeConverter : Converter :=
  { name := str "error"
    enkodoFunction := str "String"
    enc := fun val => val ++ str ".Error()"
    dec := fun val => str "errors.New(" ++ val ++ str ")"
    imports := [str "errors"] }

/-- The converter registry `enc_types_advanced` (lines 26-43), as an
association list from Go type name to converter. -/
def enc_types_advanced : List (GoStr × Converter) :=
  [ (str "uint",    NewBasicTypeConverter "uint"    "Uint"),
    (str "uint8",   NewBasicTypeConverter "uint8"   "Uint8"),
    (str "uint16",  NewBasicTypeConverter "uint16"  "Uint16"),
    (str "uint32",  NewBasicTypeConverter "uint32"  "Uint32"),
    (str "uint64",  NewBasicTypeConverter "uint64"  "Uint64"),
    (str "int",     NewBasicTypeConverter "int"     "Int"),
    (str "int8",    NewBasicTypeConverter "int8"    "Int8"),
    (str "int16",   NewBasicTypeConverter "int16"   "Int16"),
    (str "int32",   NewBasicTypeConverter "int32"   "Int32"),
    (str "int64",   NewBasicTypeConverter "int64"   "Int64"),
    (str "float32", NewBasicTypeConverter "float32" "Float32"),
    (str "float64", NewBasicTypeConverter "float64" "Float64"),
    (str "string",  NewBasicTypeConverter "string"  "String"),
    (str "bool",    NewBasicTypeConverter "bool"    "Bool"),
    (str "[]byte",  NewBasicTypeConverter "[]byte"  "Bytes"),
    (str "error",   ErrorTypeConverter) ]

/-- Lookup `enc_types_advanced[ty]`. -/
def lookupConv (ty : GoStr) : Option Converter :=
  (enc_types_advanced.find? (fun p => p.1 = ty)).map (·.2)

/-- A struct field (lines 122-127): name, Go type, optional override type
taken from the `enkodo:"..."` tag (empty string = no override).  The Go
field is called `Type`, which is a Lean keyword, hence `Typ` here. -/
structure FieldR where
  Name : GoStr
  Typ : GoStr
  OverrideType : GoStr
deriving DecidableEq

/-- A struct (lines 129-136): name and fields.  The `_declared` map and
`_hasLoopVar` flag are generation-pass state; `_declared` is threaded
explicitly through the decode emitter below (`_hasLoopVar` is never
used by the source). -/
structure StructR where
  Name : GoStr
  Fields : List FieldR
deriving DecidableEq

/-- One emitted line of generated Go code.  Each constructor corresponds to
exactly one `fmt.Fprintf` format string of the source; loop bodies are
nested.  In comments below, `%s` slots are shown with the constructor's
argument names. -/
inductive Stmt where
/-- `// Do not know what to do with name (ty)` -/
| comment (name ty : GoStr)
/-- `enc.op(arg)` -/
| encCall (op arg : GoStr)
/-- `enc.Int(len(arg))` -/
| encLen (arg : GoStr)
/-- `enc.Encode(arg)` -/
| encNested (arg : GoStr)
/-- `for _, v := range coll {` ... `}` -/
| forRange (v coll : GoStr) (body : List Stmt)
/-- `name = make([]byte, 0)` -/
| makeBytes (name : GoStr)
/-- `if err = dec.Bytes(&name); err != nil { return }` -/
| decBytes (name : GoStr)
/-- `if name, err = dec.op(); err != nil { return err }` -/
| decAssign (name op : GoStr)
/-- `if v, err := dec.op(); err == nil { name = rhs } else { return err }` -/
| decTransform (op name rhs : GoStr)
/-- `name = new(ty)` -/
| newRec (name ty : GoStr)
/-- `if err = dec.Decode(name); err != nil { return }` -/
| decNested (name : GoStr)
/-- `var name ty` -/
| varDecl (name ty : GoStr)
/-- `var name = new(ty)` -/
| varDeclNew (name ty : GoStr)
/-- `name = make(ty, 0, capVar)` -/
| makeCap (name ty capVar : GoStr)
/-- `for i := 0; i < bound; i++ {` ... `}` -/
| forCount (bound : GoStr) (body : List Stmt)
/-- `name = append(name, tmp)` -/
| appendStmt (name tmp : GoStr)

/-- `initType` (lines 310-320): the declaration statement and the name of
the temporary element variable for a list type.  `strings.Trim(typ, "[]")`
strips every leading and trailing bracket character, and the name is
always `"t"` (the per-type naming is commented out in the source). -/
def initType (typ : GoStr) : Stmt × GoStr :=
  let clean_typ := goTrim (str "[]") typ
  let name := str "t"
  if typ.head? = some '*' then (Stmt.varDeclNew name clean_typ, name)
  else (Stmt.varDecl name clean_typ, name)

/-- The body of `EncodeField` (lines 165-203) after the override
substitution: `name` is the (possibly override-cast) value expression and
`ty` the (possibly overridden) type; recursive calls always carry an
empty override, so the substitution happens only in `EncodeField` below.
Branch order mirrors the source: unusable-type guard, converter registry,
pointer, list, fall-through comment.  (For a type of length 1 starting
with `[` the Go source would panic on `field.Type[2:]`; such a type is
unreachable from `GetFieldType`, and the total model emits the
fall-through comment.) -/
def encGo (identCount : Nat) (name : GoStr) (ty : GoStr) : List Stmt :=
  if ty = [] ∨ (ty.head? = some '[' ∧ ty.length = 2) then [.comment name ty]
  else
    let typ := ty
    match lookupConv typ with
    | some conv => [.encCall conv.enkodoFunction (conv.enc name)]
    | none =>
      if ty.head? = some '*' then [.encNested name]
      else
        match ty with
        | '[' :: _ :: rest =>
          [.encLen name,
           .forRange (str "v") name (encGo (identCount + 1) (str "v") rest)]
        | _ => [.comment name ty]

/-- `EncodeField` (lines 165-203): if an override is present, the value is
wrapped in the override cast and the override replaces the field type
before dispatch. -/
def EncodeField (identCount : Nat) (field : FieldR) : List Stmt :=
  let name :=
    if field.OverrideType = [] then field.Name
    else field.OverrideType ++ '(' :: field.Name ++ [')']
  let ty := if field.OverrideType = [] then field.Typ else field.OverrideType
  encGo identCount name ty

/-- The body of `DecodeField` (lines 205-303), with the `_declared` scope
tracker threaded explicitly (list of declared variable names).  Branch
order mirrors the source: unusable-type guard on the declared type,
`[]byte` special case on the declared type, converter registry on the
override-or-declared type, pointer on the declared type, list on the
declared type.  In the list branch the source reads the length by
recursing with `Field{"_arrLen", "int", ""}`; that call lands in the
registry branch and emits exactly `if _arrLen, err = dec.Int(); err != nil
{ return err }`, which is inlined here as `lenRead` so that the recursion
is structural (the lemma `decGo_arrLen_read` below checks the agreement). -/
def decGo (declared : List GoStr) (identCount : Nat) (name : GoStr)
    (ty ov : GoStr) : List Stmt × List GoStr :=
  if ty = [] ∨ (ty.head? = some '[' ∧ ty.length = 2) then
    ([.comment name ty], declared)
  else if ty = str "[]byte" then
    ([.makeBytes name, .decBytes name], declared)
  else
    let typ := if ov = [] then ty else ov
    match lookupConv typ with
    | some conv =>
      let d0 := conv.dec (str "v")
      let d :=
        if ov = [] then d0
        else ty ++ '(' :: (if d0 = [] then str "v" else d0) ++ [')']
      (if d = [] then [.decAssign name conv.enkodoFunction]
       else [.decTransform conv.enkodoFunction name d], declared)
    | none =>
      if ty.head? = some '*' then
        ([.newRec name (goTrim (str "*") ty), .decNested name], declared)
      else
        match ty with
        | '[' :: c :: rest =>
          let (pre, declared1) :=
            if (str "_arrLen") ∈ declared then (([] : List Stmt), declared)
            else ([Stmt.varDecl (str "_arrLen") (str "int")],
                  (str "_arrLen") :: declared)
          let (initS, temp) := initType ('[' :: c :: rest)
          let lenRead := Stmt.decAssign (str "_arrLen") (str "Int")
          let (elemS, declared2) := decGo declared1 (identCount + 1) temp rest []
          (pre ++ [lenRead,
                   .makeCap name ('[' :: c :: rest) (str "_arrLen"),
                   .forCount (str "_arrLen")
                     (initS :: elemS ++ [.appendStmt name temp])],
           declared2)
        | _ => ([], declared)

/-- `DecodeField` (lines 205-303). -/
def DecodeField (declared : List GoStr) (identCount : Nat) (field : FieldR) :
    List Stmt × List GoStr :=
  decGo declared identCount field.Name field.Typ field.OverrideType

/-- The receiver name `fnRef = strings.ToLower(s.Name[0:1])`
(lines 144, 155). -/
def fnRef (s : StructR) : GoStr := (s.Name.take 1).map Char.toLower

/-- `EncodeFunc` (lines 142-152): the statements of the generated
`MarshalEnkodo` body — one `EncodeField` per field in declaration order,
the field name prefixed with the receiver.  (The function header and the
trailing `return` are fixed text and are not modelled; `EncodeFunc` also
resets `_declared` to a fresh map, which is why `DecodeFunc` below starts
from the empty tracker.) -/
def EncodeFunc (s : StructR) : List Stmt :=
  (s.Fields.map (fun field =>
    EncodeField 1 ⟨fnRef s ++ '.' :: field.Name, field.Typ, field.OverrideType⟩)).flatten

/-- The field loop of `DecodeFunc` (lines 154-163), threading `_declared`. -/
def decFieldsGo (declared : List GoStr) (r : GoStr) :
    List FieldR → List Stmt × List GoStr
  | [] => ([], declared)
  | field :: rest =>
    let (s1, d1) := DecodeField declared 1
      ⟨r ++ '.' :: field.Name, field.Typ, field.OverrideType⟩
    let (s2, d2) := decFieldsGo d1 r rest
    (s1 ++ s2, d2)

/-- `DecodeFunc` (lines 154-163): the statements of the generated
`UnmarshalEnkodo` body.  Per struct, `EncodeFunc` runs first and resets
`_declared`, so decoding starts from the empty tracker. -/
def DecodeFunc (s : StructR) : List Stmt :=
  (decFieldsGo [] (fnRef s) s.Fields).1

/-! ### Analysis of emitted statements -/

/-- A wire operation occurring in generated code: one call to a codec
primitive (by its enkodo function name), or one delegated nested
encode/decode (`enc.Encode` / `dec.Decode`). -/
inductive WireOp where
| prim (op : GoStr)
| nested
deriving DecidableEq

mutual
/-- The wire operations a single emitted statement performs, in textual
order (loop bodies contribute their operations once, as written). -/
def stmtOps : Stmt → List WireOp
  | .encCall op _ => [.prim op]
  | .encLen _ => [.prim (str "Int")]
  | .encNested _ => [.nested]
  | .forRange _ _ body => stmtsOps body
  | .decBytes _ => [.prim (str "Bytes")]
  | .decAssign _ op => [.prim op]
  | .decTransform op _ _ => [.prim op]
  | .decNested _ => [.nested]
  | .forCount _ body => stmtsOps body
  | _ => []

/-- The wire operations of a statement list, in textual order. -/
def stmtsOps : List Stmt → List WireOp
  | [] => []
  | s :: rest => stmtOps s ++ stmtsOps rest
end

mutual
/-- Number of `var name ty` / `var name = new(ty)` declarations of the
given variable name in a statement, loop bodies included. -/
def countDeclS (n : GoStr) : Stmt → Nat
  | .varDecl m _ => if m = n then 1 else 0
  | .varDeclNew m _ => if m = n then 1 else 0
  | .forRange _ _ body => countDecl n body
  | .forCount _ body => countDecl n body
  | _ => 0

/-- Number of declarations of variable `n` in a statement list, loop
bodies included. -/
def countDecl (n : GoStr) : List Stmt → Nat
  | [] => 0
  | s :: rest => countDeclS n s + countDecl n rest
end

/-- Declarations of variable `n` appearing directly in a statement list
(not inside any loop body): in generated Go, two such declarations
in the same list would sit in the same block scope and conflict. -/
def countDeclDirect (n : GoStr) : List Stmt → Nat
  | [] => 0
  | .varDecl m _ :: rest => (if m = n then 1 else 0) + countDeclDirect n rest
  | .varDeclNew m _ :: rest => (if m = n then 1 else 0) + countDeclDirect n rest
  | _ :: rest => countDeclDirect n rest

mutual
/-- All block scopes of a statement: the bodies of its loops,
recursively. -/
def blocksS : Stmt → List (List Stmt)
  | .forRange _ _ body => body :: blocksIn body
  | .forCount _ body => body :: blocksIn body
  | _ => []

/-- All block scopes strictly inside a statement list. -/
def blocksIn : List Stmt → List (List Stmt)
  | [] => []
  | s :: rest => blocksS s ++ blocksIn rest
end

/-- All block scopes of a generated function body: the body itself plus
every loop body, recursively. -/
def blocks (body : List Stmt) : List (List Stmt) := body :: blocksIn body

mutual
/-- Structural equality of statements, as a Boolean (hand-rolled because
`Stmt` nests `List Stmt`, which defeats `deriving DecidableEq`). -/
def stmtBEq : Stmt → Stmt → Bool
  | .comment a b, .comment a' b' => a = a' ∧ b = b'
  | .encCall a b, .encCall a' b' => a = a' ∧ b = b'
  | .encLen a, .encLen a' => a = a'
  | .encNested a, .encNested a' => a = a'
  | .forRange v c body, .forRange v' c' body' => v = v' ∧ c = c' ∧ stmtsBEq body body'
  | .makeBytes a, .makeBytes a' => a = a'
  | .decBytes a, .decBytes a' => a = a'
  | .decAssign a b, .decAssign a' b' => a = a' ∧ b = b'
  | .decTransform a b c, .decTransform a' b' c' => a = a' ∧ b = b' ∧ c = c'
  | .newRec a b, .newRec a' b' => a = a' ∧ b = b'
  | .decNested a, .decNested a' => a = a'
  | .varDecl a b, .varDecl a' b' => a = a' ∧ b = b'
  | .varDeclNew a b, .varDeclNew a' b' => a = a' ∧ b = b'
  | .makeCap a b c, .makeCap a' b' c' => a = a' ∧ b = b' ∧ c = c'
  | .forCount b body, .forCount b' body' => b = b' ∧ stmtsBEq body body'
  | .appendStmt a b, .appendStmt a' b' => a = a' ∧ b = b'
  | _, _ => false

/-- Pointwise `stmtBEq` on lists. -/
def stmtsBEq : List Stmt → List Stmt → Bool
  | [], [] => true
  | s :: rest, s' :: rest' => stmtBEq s s' && stmtsBEq rest rest'
  | _, _ => false
end

mutual
/-- Whether a statement equal to `x` occurs in a statement, loop bodies
included. -/
def stmtHasS (x : Stmt) : Stmt → Bool
  | .forRange v c body => stmtBEq x (.forRange v c body) || stmtsHave x body
  | .forCount b body => stmtBEq x (.forCount b body) || stmtsHave x body
  | s => stmtBEq x s

/-- Whether a statement equal to `x` occurs in a statement list, loop
bodies included. -/
def stmtsHave (x : Stmt) : List Stmt → Bool
  | [] => false
  | s :: rest => stmtHasS x s || stmtsHave x rest
end

/-! ### Struct extraction (`GetFieldType`, `GetStructFields`,
`objectsInFile`)

The Go parser (`go/parser`, `go/ast`) is an external collaborator; its
output is modelled by `GoExpr` / `RawField` / `RawStruct`, carrying
exactly the parts of the AST that the source reads: the type expression
of every struct field, the field's name list (`field.Names` — empty for
an embedded field), and the raw struct-tag text (`field.Tag.Value`). -/

/-- The shapes of `ast.Expr` that `GetFieldType` (lines 322-344)
distinguishes: identifier, star expression, array type, selector
(qualified name), and everything else. -/
inductive GoExpr where
| ident (name : GoStr)
| star (x : GoExpr)
| array (elt : GoExpr)
| selector (sel : GoStr)
| other
deriving DecidableEq

/-- `GetFieldType` (lines 322-344).  A star whose operand is not a bare
identifier yields the empty string (the `ok` check); a selector reduces
to its final segment; unknown shapes yield the empty string. -/
def GetFieldType : GoExpr → GoStr
  | .ident n => n
  | .star x =>
    match x with
    | .ident n => '*' :: n
    | _ => []
  | .array e => '[' :: ']' :: GetFieldType e
  | .selector sel => sel
  | .other => []

/-- `\w` of the tag regexp `enkodo:"(\w+)"`: ASCII word characters. -/
def isWordChar (c : Char) : Bool := c.isAlphanum || c = '_'

/-- `strings.Contains(hay, needle)` on modelled strings. -/
def containsSub (needle : GoStr) : GoStr → Bool
  | [] => needle.isPrefixOf []
  | c :: rest => needle.isPrefixOf (c :: rest) || containsSub needle rest

/-- One attempted match of the regexp `enkodo:"(\w+)"` at the head of the
string: the literal `enkodo:"`, then a maximal nonempty run of word
characters, then `"`.  (Since `\w` cannot match `"`, the maximal run is
the only candidate the regexp engine's backtracking could accept.) -/
def tagMatchHere (s : GoStr) : Option GoStr :=
  if (str "enkodo:\x22").isPrefixOf s then
    let after := s.drop (str "enkodo:\x22").length
    let run := after.takeWhile isWordChar
    if run ≠ [] ∧ (after.drop run.length).head? = some '\x22' then some run
    else none
  else none

/-- `tag.FindStringSubmatch` (line 375) for the anchored-nowhere regexp
`enkodo:"(\w+)"`: the submatch of the leftmost match, scanning
positions left to right. -/
def tagFindSubmatch : GoStr → Option GoStr
  | [] => none
  | c :: rest =>
    match tagMatchHere (c :: rest) with
    | some r => some r
    | none => tagFindSubmatch rest

/-- One raw struct field as handed over by the Go AST: the name list
(`field.Names`), the type expression, and the struct-tag text
(`field.Tag`, `none` when the field carries no tag). -/
structure RawField where
  names : List GoStr
  expr : GoExpr
  tag : Option GoStr
deriving DecidableEq

/-- One raw struct type declaration: the `TypeSpec` name and the field
declarations.  (`objectsInFile` also meets objects that are not struct
type declarations and skips them before `GetStructFields` does any
work; only struct declarations are modelled.) -/
structure RawStruct where
  name : GoStr
  fields : List RawField
deriving DecidableEq

/-- The per-field logic of the `GetStructFields` loop (lines 365-383),
given the first declared name `n0` (only `field.Names[0]` is ever read):
`none` means the field is skipped.  Skip conditions, in source order:
no tag or a tag not containing `enkodo` (line 372); then, after the
override extraction (`len(match) > 1 && len(match[1]) > 1`, line 376 —
note a one-character override is discarded), a non-exported name or an
empty type with an empty override (line 379).  A field with an empty
name cannot reach here from the Go AST; the model skips it. -/
def mkField (n0 : GoStr) (rf : RawField) : Option FieldR :=
  let ty := GetFieldType rf.expr
  match rf.tag with
  | none => none
  | some tv =>
    if ¬ containsSub (str "enkodo") tv then none
    else
      let ov := match tagFindSubmatch tv with
        | some m => if 1 < m.length then m else []
        | none => []
      match n0 with
      | [] => none
      | c :: _ =>
        if ¬ c.isUpper ∨ (ty = [] ∧ ov = []) then none
        else some ⟨n0, ty, ov⟩

/-- The result of running `GetStructFields` on one struct declaration:
the source either panics (index out of range on `field.Names[0]`),
returns `nil` (zero eligible fields), or returns the struct. -/
inductive ExtractResult where
| panicked
| skipped
| ok (s : StructR)
deriving DecidableEq

/-- The field loop of `GetStructFields`: `none` models the
index-out-of-range panic on `field.Names[0]` (line 367), which fires
before the tag check, so an embedded field panics even when untagged. -/
def collectFields : List RawField → Option (List FieldR)
  | [] => some []
  | rf :: rest =>
    match rf.names with
    | [] => none
    | n0 :: _ =>
      match collectFields rest with
      | none => none
      | some fs =>
        match mkField n0 rf with
        | some f => some (f :: fs)
        | none => some fs

/-- `GetStructFields` (lines 346-389) on a struct type declaration. -/
def GetStructFields (rs : RawStruct) : ExtractResult :=
  match collectFields rs.fields with
  | none => .panicked
  | some [] => .skipped
  | some fs => .ok ⟨rs.name, fs⟩

/-- The base codec dependency `packageName` (line 19). -/
def packageNameStr : GoStr := str "github.com/nullmonk/enkodo"

/-- Append an import if it is not already present (set semantics of the
`imports` map; the claims below only use membership, so the model's
insertion order is irrelevant). -/
def insertImport (acc : List GoStr) (x : GoStr) : List GoStr :=
  if x ∈ acc then acc else acc ++ [x]

/-- The import scan of `objectsInFile` (lines 430-447): start from the
base codec dependency, then for every struct and field look up the
converter of the override-or-declared type and union in its imports. -/
def computeImports (structs : List StructR) : List GoStr :=
  structs.foldl (fun acc s =>
    s.Fields.foldl (fun acc f =>
      let ty := if f.OverrideType ≠ [] then f.OverrideType else f.Typ
      match lookupConv ty with
      | some conv => conv.imports.foldl insertImport acc
      | none => acc) acc) [packageNameStr]

/-- The outcome of one generation unit. -/
inductive GenResult where
| panicked
| noArtifact
| artifact (pkg : GoStr) (imports : List GoStr) (code : List Stmt)

/-- The struct loop of `objectsInFile` (lines 399-410): a panic in
`GetStructFields` aborts the run; skipped declarations contribute
nothing. -/
def collectStructs : List RawStruct → Option (List StructR)
  | [] => some []
  | rs :: rest =>
    match GetStructFields rs with
    | .panicked => none
    | .skipped => collectStructs rest
    | .ok s => (collectStructs rest).map (s :: ·)

/-- The core of `objectsInFile` (lines 390-461), past the external
parsing and file I/O: extract the structs; with none, return without
producing an artifact (lines 412-414); otherwise emit the artifact with
the aggregated imports and, per struct, the encode body followed by the
decode body (lines 456-459). -/
def objectsInFile (pkg : GoStr) (objs : List RawStruct) : GenResult :=
  match collectStructs objs with
  | none => .panicked
  | some [] => .noArtifact
  | some structs =>
    .artifact pkg (computeImports structs)
      ((structs.map (fun s => EncodeFunc s ++ DecodeFunc s)).flatten)

/-! ### Wire semantics of the generated code

The codec primitives (`enc.Uint8`, `dec.String`, ...) are external
collaborators that the spec leaves at their interface, so the wire is
modelled as a stream of tokens `(codec operation name, opaque payload)`:
each primitive writes its argument as one token and reads back exactly
what was written.  Values carried by fields are `Val`: an opaque
primitive payload, a record (the ordered values of its eligible fields,
as consumed by the record's own generated procedures), or a list.
Converter and override value transforms (`string(...)` casts,
`v.Error()` / `errors.New(v)`) are payload-preserving in this model:
for the error converter the payload stands for the error's message,
which is exactly what the generated code transports.

`Shape` describes the field-type combinations named by the spec's
round-trip law: registry primitive, raw byte block, overridden
primitive, pointer-to-record (carrying the pointee's field shapes, since
`enc.Encode` / `dec.Decode` delegate to the pointee's own generated
procedures), and list.  The denotations follow the branch structure of
`EncodeField` / `DecodeField`; they take fuel (decremented at every
recursive call) because pointee records are arbitrary.

One deliberate deviation, load-bearing for claim C3: `decVal`'s list
case reads the length and then decodes exactly that many elements,
which matches the generated `for i := 0; i < _arrLen; i++` loop only
when decoding an element cannot itself assign `_arrLen` — true for
primitive and pointer elements (a pointee's generated procedure has its
own `_arrLen`), false for list-of-list fields, where the generated code
is broken outright (see the C3 theorem on the syntactic layer).  The
round-trip theorem therefore restricts list elements to primitive and
pointer shapes via `elemOk`. -/

/-- A wire token: the codec operation that wrote it and its payload. -/
abbrev Tok := GoStr × Nat

/-- Runtime values carried by fields. -/
inductive Val where
| pv (n : Nat)
| vrec (vs : List Val)
| vlist (es : List Val)

/-- Field-type shapes covered by the round-trip law. -/
inductive Shape where
| prim (ty : GoStr)
| bytes
| overr (orig ov : GoStr)
| ptr (ty : GoStr) (fields : List Shape)
| list (elem : Shape)

mutual
/-- The shapes for which the generated code is well-formed and the
denotations below are faithful: registry primitives; raw byte blocks;
overrides that are registry-resolvable and sit on a bare named declared
type (nonempty, not a pointer, not a list — in particular not `[]byte`,
whose decode special case fires before the override is consulted);
pointers to records of supported fields; lists of `elemOk` elements. -/
def Supported : Shape → Bool
  | .prim ty => (lookupConv ty).isSome
  | .bytes => true
  | .overr orig ov =>
    (lookupConv ov).isSome ∧ orig ≠ [] ∧ orig.head? ≠ some '*' ∧
      orig.head? ≠ some '['
  | .ptr _ fields => allSupported fields
  | .list elem => elemOk elem

/-- `Supported` on every field of a record. -/
def allSupported : List Shape → Bool
  | [] => true
  | s :: rest => Supported s && allSupported rest

/-- List elements for which the generated decode loop is correct:
registry primitives other than `[]byte` (whose element temp would be
declared as `byte` by `initType`'s bracket trimming), and pointers to
records of supported fields. -/
def elemOk : Shape → Bool
  | .prim ty => (lookupConv ty).isSome ∧ ty ≠ str "[]byte"
  | .ptr _ fields => allSupported fields
  | _ => false
end

/-- Read one token written by codec operation `op`. -/
def readTok (op : GoStr) : List Tok → Option (Nat × List Tok)
  | [] => none
  | (o, n) :: rest => if o = op then some (n, rest) else none

mutual
/-- Wire output of the generated encode code for one field of shape `s`
holding value `v` (mirroring `EncodeField`'s branches): a registry
primitive writes one token via its converter's codec operation (an
unresolvable type emits only a comment, hence writes nothing); `[]byte`
writes one `Bytes` token; an override writes one token via the
override's converter; a pointer delegates to the pointee record's
generated encode; a list writes its length as an `Int` token followed by
its elements. -/
def encVal : Nat → Shape → Val → Option (List Tok)
  | 0, _, _ => none
  | _ + 1, .prim ty, .pv n =>
    match lookupConv ty with
    | some conv => some [(conv.enkodoFunction, n)]
    | none => some []
  | _ + 1, .prim ty, _ =>
    match lookupConv ty with
    | some _ => none
    | none => some []
  | _ + 1, .bytes, .pv n => some [(str "Bytes", n)]
  | _ + 1, .bytes, _ => none
  | _ + 1, .overr _ ov, .pv n =>
    match lookupConv ov with
    | some conv => some [(conv.enkodoFunction, n)]
    | none => some []
  | _ + 1, .overr _ ov, _ =>
    match lookupConv ov with
    | some _ => none
    | none => some []
  | fuel + 1, .ptr _ fields, .vrec vs => encValFields fuel fields vs
  | _ + 1, .ptr _ _, _ => none
  | fuel + 1, .list elem, .vlist es =>
    match encValElems fuel elem es with
    | some w => some ((str "Int", es.length) :: w)
    | none => none
  | _ + 1, .list _, _ => none

/-- Wire output of a record's generated encode: its fields in
declaration order. -/
def encValFields : Nat → List Shape → List Val → Option (List Tok)
  | 0, _, _ => none
  | _ + 1, [], [] => some []
  | fuel + 1, s :: ss, v :: vs =>
    match encVal fuel s v with
    | some w1 =>
      match encValFields fuel ss vs with
      | some w2 => some (w1 ++ w2)
      | none => none
    | none => none
  | _ + 1, _, _ => none

/-- Wire output of the per-element encode loop. -/
def encValElems : Nat → Shape → List Val → Option (List Tok)
  | 0, _, _ => none
  | _ + 1, _, [] => some []
  | fuel + 1, elem, v :: vs =>
    match encVal fuel elem v with
    | some w1 =>
      match encValElems fuel elem vs with
      | some w2 => some (w1 ++ w2)
      | none => none
    | none => none
end

mutual
/-- Behaviour of the generated decode code for one field of shape `s`
(mirroring `DecodeField`'s branches, in source order): the declared-type
guard and an unresolvable type emit no code, so they consume nothing and
leave the field at its zero value (modelled `.pv 0`); `[]byte` reads one
`Bytes` token; a registry primitive reads one token via its converter
(the decode transform and, for overrides, the cast back to the declared
type preserve the payload); a pointer allocates and delegates to the
pointee's generated decode; a list reads the `Int` length and then that
many elements.  (For an override on a pointer- or list-shaped declared
type the generated code dispatches on the declared type instead; such
shapes are outside `Supported` and this denotation does not model
them.) -/
def decVal : Nat → Shape → List Tok → Option (Val × List Tok)
  | 0, _, _ => none
  | _ + 1, .prim ty, w =>
    if ty = str "[]byte" then
      match readTok (str "Bytes") w with
      | some (n, rest) => some (.pv n, rest)
      | none => none
    else
      match lookupConv ty with
      | some conv =>
        match readTok conv.enkodoFunction w with
        | some (n, rest) => some (.pv n, rest)
        | none => none
      | none => some (.pv 0, w)
  | _ + 1, .bytes, w =>
    match readTok (str "Bytes") w with
    | some (n, rest) => some (.pv n, rest)
    | none => none
  | _ + 1, .overr orig ov, w =>
    if orig = [] ∨ (orig.head? = some '[' ∧ orig.length = 2) then
      some (.pv 0, w)
    else if orig = str "[]byte" then
      match readTok (str "Bytes") w with
      | some (n, rest) => some (.pv n, rest)
      | none => none
    else
      match lookupConv ov with
      | some conv =>
        match readTok conv.enkodoFunction w with
        | some (n, rest) => some (.pv n, rest)
        | none => none
      | none => some (.pv 0, w)
  | fuel + 1, .ptr _ fields, w =>
    match decValFields fuel fields w with
    | some (vs, rest) => some (.vrec vs, rest)
    | none => none
  | fuel + 1, .list elem, w =>
    match readTok (str "Int") w with
    | some (n, rest) =>
      match decValElems fuel elem n rest with
      | some (es, rest') => some (.vlist es, rest')
      | none => none
    | none => none

/-- Behaviour of a record's generated decode: its fields in declaration
order. -/
def decValFields : Nat → List Shape → List Tok → Option (List Val × List Tok)
  | 0, _, _ => none
  | _ + 1, [], w => some ([], w)
  | fuel + 1, s :: ss, w =>
    match decVal fuel s w with
    | some (v, w1) =>
      match decValFields fuel ss w1 with
      | some (vs, w2) => some (v :: vs, w2)
      | none => none
    | none => none

/-- Behaviour of the per-element decode loop, reading `n` elements. -/
def decValElems : Nat → Shape → Nat → List Tok → Option (List Val × List Tok)
  | 0, _, _, _ => none
  | _ + 1, _, 0, w => some ([], w)
  | fuel + 1, elem, n + 1, w =>
    match decVal fuel elem w with
    | some (v, w1) =>
      match decValElems fuel elem n w1 with
      | some (vs, w2) => some (v :: vs, w2)
      | none => none
    | none => none
end

/-! ### Concrete inputs used by witnesses and counterexamples -/

/-- A record exercising all six supported field-type combinations:
primitive, overridden primitive, pointer-to-record, list-of-primitive,
list-of-pointer, raw byte block. -/
def demoShapes : List Shape :=
  [.prim (str "string"),
   .overr (str "SocialMedia") (str "string"),
   .ptr (str "User") [.prim (str "string"), .prim (str "uint8")],
   .list (.prim (str "int64")),
   .list (.ptr (str "User") [.prim (str "string"), .prim (str "uint8")]),
   .bytes]

/-- A populated value for `demoShapes`. -/
def demoVals : List Val :=
  [.pv 1, .pv 2, .vrec [.pv 3, .pv 4], .vlist [.pv 5, .pv 6],
   .vlist [.vrec [.pv 7, .pv 8]], .pv 9]

/-- The wire stream the generated encode writes for `demoVals`. -/
def demoWire : List Tok :=
  [(str "String", 1), (str "String", 2), (str "String", 3),
   (str "Uint8", 4), (str "Int", 2), (str "Int64", 5), (str "Int64", 6),
   (str "Int", 1), (str "String", 7), (str "Uint8", 8), (str "Bytes", 9)]

/-- A record with two sibling list fields of the same element type. -/
def twoListStruct : StructR :=
  ⟨str "S", [⟨str "A", str "[]int64", []⟩, ⟨str "B", str "[]int64", []⟩]⟩

/-- A generation unit whose single struct has one field of type
`[]error` tagged `enkodo:""`: the emitted decode invokes the error
converter (for the list's element type), whose generated code calls
`errors.New`. -/
def errListUnit : List RawStruct :=
  [⟨str "S", [⟨[str "Errs"], .array (.ident (str "error")),
              some (str "enkodo:\x22\x22")⟩]⟩]

/-- The import list of a generation outcome (empty when no artifact). -/
def genImports : GenResult → List GoStr
  | .artifact _ imports _ => imports
  | _ => []

/-- The generated code of a generation outcome (empty when no artifact). -/
def genCode : GenResult → List Stmt
  | .artifact _ _ code => code
  | _ => []

/-- Whether a generation outcome produced an artifact. -/
def isArtifact : GenResult → Bool
  | .artifact _ _ _ => true
  | _ => false

/-- A struct declaration none of whose fields is eligible (every field
has a first name and is skipped by the extraction loop). -/
def noEligible (rs : RawStruct) : Bool :=
  rs.fields.all fun rf =>
    match rf.names with
    | [] => false
    | n0 :: _ => (mkField n0 rf).isNone

/-- A struct declaration with no eligible fields: one unexported tagged
field and one exported untagged field. -/
def c9demo : RawStruct :=
  ⟨str "S",
   [⟨[str "x"], .ident (str "int"), some (str "enkodo:\x22\x22")⟩,
    ⟨[str "Y"], .ident (str "int"), none⟩]⟩

/-- A struct declaration whose only field is embedded (no names). -/
def embeddedDemo : RawStruct := ⟨str "S", [⟨[], .ident (str "Base"), none⟩]⟩

/-- A struct declaration with a multi-name field declaration `A, B int`. -/
def multiNameDemo : RawStruct :=
  ⟨str "S",
   [⟨[str "A", str "B"], .ident (str "int"), some (str "enkodo:\x22\x22")⟩]⟩

/-! ### Supporting lemmas -/

/-- The length read inlined in `decGo`'s list branch agrees with the
source's recursive call `DecodeField(identCount, Field{"_arrLen", "int",
""})`: that call emits exactly one error-wrapped `dec.Int()` assignment
and leaves the tracker unchanged. -/
theorem decGo_arrLen_read (declared : List GoStr) (i : Nat) :
    DecodeField declared i ⟨str "_arrLen", str "int", []⟩ =
      ([.decAssign (str "_arrLen") (str "Int")], declared) := rfl

/-- Round-trip of the wire semantics, proved for all three layers
simultaneously by induction on fuel (encode and decode consume fuel
along isomorphic recursion trees, so the same fuel serves both sides). -/
theorem round_trip_aux : ∀ fuel : Nat,
    (∀ s v w rest, Supported s = true → encVal fuel s v = some w →
      decVal fuel s (w ++ rest) = some (v, rest)) ∧
    (∀ ss vs w rest, allSupported ss = true → encValFields fuel ss vs = some w →
      decValFields fuel ss (w ++ rest) = some (vs, rest)) ∧
    (∀ elem es w rest, elemOk elem = true → encValElems fuel elem es = some w →
      decValElems fuel elem es.length (w ++ rest) = some (es, rest)) := by
  intro fuel
  induction fuel with
  | zero =>
    refine ⟨?_, ?_, ?_⟩ <;> intro a b c d h1 h2 <;>
      simp [encVal, encValFields, encValElems] at h2
  | succ f ih =>
    obtain ⟨ihA, ihB, ihC⟩ := ih
    refine ⟨?_, ?_, ?_⟩
    · intro s v w rest hsup henc
      cases s with
      | prim ty =>
        simp only [Supported] at hsup
        cases hconv : lookupConv ty with
        | none => rw [hconv] at hsup; simp at hsup
        | some conv =>
          cases v with
          | pv n =>
            simp only [encVal] at henc
            rw [hconv] at henc
            cases henc
            simp only [decVal, List.cons_append, List.nil_append]
            by_cases hb : ty = str "[]byte"
            · subst hb
              have hk : lookupConv (str "[]byte") =
                  some (NewBasicTypeConverter "[]byte" "Bytes") := rfl
              have hc : conv = NewBasicTypeConverter "[]byte" "Bytes" := by
                have := hk.symm.trans hconv
                exact (Option.some.inj this).symm
              subst hc
              simp [readTok, NewBasicTypeConverter]
            · rw [if_neg hb, hconv]
              simp [readTok]
          | vrec vs =>
            simp only [encVal] at henc
            rw [hconv] at henc
            cases henc
          | vlist es =>
            simp only [encVal] at henc
            rw [hconv] at henc
            cases henc
      | bytes =>
        cases v with
        | pv n =>
          simp only [encVal] at henc
          cases henc
          simp [decVal, readTok]
        | vrec vs => simp [encVal] at henc
        | vlist es => simp [encVal] at henc
      | overr orig ov =>
        simp only [Supported, decide_eq_true_eq] at hsup
        obtain ⟨hov, hne, hstar, hbrack⟩ := hsup
        cases hconv : lookupConv ov with
        | none => rw [hconv] at hov; simp at hov
        | some conv =>
          cases v with
          | pv n =>
            simp only [encVal] at henc
            rw [hconv] at henc
            cases henc
            simp only [decVal, List.cons_append, List.nil_append]
            rw [if_neg (by
              rintro (h | ⟨h1, h2⟩)
              · exact hne h
              · exact hbrack h1)]
            rw [if_neg (by
              intro h
              apply hbrack
              rw [h]
              rfl)]
            rw [hconv]
            simp [readTok]
          | vrec vs =>
            simp only [encVal] at henc
            rw [hconv] at henc
            cases henc
          | vlist es =>
            simp only [encVal] at henc
            rw [hconv] at henc
            cases henc
      | ptr ty fields =>
        simp only [Supported] at hsup
        cases v with
        | pv n => simp [encVal] at henc
        | vrec vs =>
          simp only [encVal] at henc
          simp only [decVal]
          rw [ihB fields vs w rest hsup henc]
        | vlist es => simp [encVal] at henc
      | list elem =>
        simp only [Supported] at hsup
        cases v with
        | pv n => simp [encVal] at henc
        | vrec vs => simp [encVal] at henc
        | vlist es =>
          simp only [encVal] at henc
          cases helems : encValElems f elem es with
          | none => rw [helems] at henc; cases henc
          | some w' =>
            rw [helems] at henc
            cases henc
            simp only [decVal, List.cons_append]
            rw [show readTok (str "Int") ((str "Int", es.length) :: (w' ++ rest)) =
              some (es.length, w' ++ rest) from by simp [readTok]]
            simp only [ihC elem es w' rest hsup helems]
    · intro ss vs w rest hsup henc
      cases ss with
      | nil =>
        cases vs with
        | nil =>
          simp only [encValFields] at henc
          cases henc
          simp [decValFields]
        | cons v vs => simp [encValFields] at henc
      | cons s ss =>
        cases vs with
        | nil => simp [encValFields] at henc
        | cons v vs =>
          simp only [allSupported, Bool.and_eq_true] at hsup
          obtain ⟨hs, hss⟩ := hsup
          simp only [encValFields] at henc
          cases h1 : encVal f s v with
          | none => rw [h1] at henc; cases henc
          | some w1 =>
            rw [h1] at henc
            cases h2 : encValFields f ss vs with
            | none => rw [h2] at henc; cases henc
            | some w2 =>
              rw [h2] at henc
              cases henc
              simp only [decValFields, List.append_assoc]
              simp only [ihA s v w1 (w2 ++ rest) hs h1]
              simp only [ihB ss vs w2 rest hss h2]
    · intro elem es w rest hok henc
      cases es with
      | nil =>
        simp only [encValElems] at henc
        cases henc
        simp [decValElems]
      | cons v vs =>
        simp only [encValElems] at henc
        cases h1 : encVal f elem v with
        | none => rw [h1] at henc; cases henc
        | some w1 =>
          rw [h1] at henc
          cases h2 : encValElems f elem vs with
          | none => rw [h2] at henc; cases henc
          | some w2 =>
            rw [h2] at henc
            cases henc
            have hsupElem : Supported elem = true := by
              cases elem <;> simp_all [elemOk, Supported]
            simp only [List.length_cons, decValElems, List.append_assoc]
            simp only [ihA elem v w1 (w2 ++ rest) hsupElem h1]
            simp only [ihC elem vs w2 rest hok h2]

/-- `stmtsOps` distributes over list append. -/
theorem stmtsOps_append (a b : List Stmt) :
    stmtsOps (a ++ b) = stmtsOps a ++ stmtsOps b := by
  induction a with
  | nil => simp [stmtsOps]
  | cons s rest ih => simp [stmtsOps, ih]

/-- Registry keys never start with `*`: a pointer type is never in the
registry. -/
theorem lookupConv_star (rest : GoStr) : lookupConv ('*' :: rest) = none := by
  have h : enc_types_advanced.find? (fun p => p.1 = '*' :: rest) = none := by
    rw [List.find?_eq_none]
    intro p hp
    fin_cases hp <;> simp [str, NewBasicTypeConverter, ErrorTypeConverter]
  simp [lookupConv, h]

/-- The only registry key starting with `[` is `[]byte`: any other list
type is not in the registry. -/
theorem lookupConv_bracket (rest : GoStr) (hb : '[' :: rest ≠ str "[]byte") :
    lookupConv ('[' :: rest) = none := by
  have h : enc_types_advanced.find? (fun p => p.1 = '[' :: rest) = none := by
    rw [List.find?_eq_none]
    intro p hp
    fin_cases hp <;>
      simp_all [str, NewBasicTypeConverter, ErrorTypeConverter, eq_comm]
  simp [lookupConv, h]

/-- The decode emitter's list branch, in closed form (for a list type
that is not `[]byte` and carries no override): declare `_arrLen` unless
already tracked, read the length into it, allocate the field with
capacity `_arrLen`, then loop — declaring the temp `t` with the
bracket-trimmed element type, decoding one element into it, and
appending it to the field — threading the tracker through the element
recursion. -/
theorem decGo_list_ov (declared : List GoStr) (i : Nat) (name : GoStr)
    (ov : GoStr) (c1 : Char) (rest : GoStr) (hrest : rest ≠ [])
    (hb : '[' :: c1 :: rest ≠ str "[]byte")
    (hconv : lookupConv (if ov = [] then '[' :: c1 :: rest else ov) = none) :
    decGo declared i name ('[' :: c1 :: rest) ov =
      ((if (str "_arrLen") ∈ declared then []
        else [Stmt.varDecl (str "_arrLen") (str "int")]) ++
        [.decAssign (str "_arrLen") (str "Int"),
         .makeCap name ('[' :: c1 :: rest) (str "_arrLen"),
         .forCount (str "_arrLen")
           (Stmt.varDecl (str "t") (goTrim (str "[]") ('[' :: c1 :: rest)) ::
             (decGo (if (str "_arrLen") ∈ declared then declared
                else (str "_arrLen") :: declared) (i + 1) (str "t") rest []).1
             ++ [.appendStmt name (str "t")])],
       (decGo (if (str "_arrLen") ∈ declared then declared
          else (str "_arrLen") :: declared) (i + 1) (str "t") rest []).2) := by
  rw [decGo.eq_def]
  by_cases hmem : (str "_arrLen") ∈ declared <;>
    simp [hrest, hb, hconv, hmem, initType]

/-- `decGo_list_ov` specialised to fields without an override. -/
theorem decGo_list (declared : List GoStr) (i : Nat) (name : GoStr)
    (c1 : Char) (rest : GoStr) (hrest : rest ≠ [])
    (hb : '[' :: c1 :: rest ≠ str "[]byte") :
    decGo declared i name ('[' :: c1 :: rest) [] =
      ((if (str "_arrLen") ∈ declared then []
        else [Stmt.varDecl (str "_arrLen") (str "int")]) ++
        [.decAssign (str "_arrLen") (str "Int"),
         .makeCap name ('[' :: c1 :: rest) (str "_arrLen"),
         .forCount (str "_arrLen")
           (Stmt.varDecl (str "t") (goTrim (str "[]") ('[' :: c1 :: rest)) ::
             (decGo (if (str "_arrLen") ∈ declared then declared
                else (str "_arrLen") :: declared) (i + 1) (str "t") rest []).1
             ++ [.appendStmt name (str "t")])],
       (decGo (if (str "_arrLen") ∈ declared then declared
          else (str "_arrLen") :: declared) (i + 1) (str "t") rest []).2) :=
  decGo_list_ov declared i name [] c1 rest hrest hb
    (by simpa using lookupConv_bracket (c1 :: rest) hb)

/-- Per-field positional parity for fields without an override: the
decode emitter performs exactly the same wire operations, in the same
order, as the encode emitter — whatever the `_declared` state,
indentation, or storage names. -/
theorem ops_parity : ∀ (n : Nat) (ty : GoStr), ty.length ≤ n →
    ∀ (declared : List GoStr) (i j : Nat) (name nm2 : GoStr),
    stmtsOps (decGo declared i name ty []).1 = stmtsOps (encGo j nm2 ty) := by
  intro n
  induction n with
  | zero =>
    intro ty hlen declared i j name nm2
    have hnil : ty = [] := List.length_eq_zero.mp (Nat.le_zero.mp hlen)
    subst hnil
    simp [decGo, encGo, stmtsOps, stmtOps]
  | succ n ihn =>
    intro ty hlen declared i j name nm2
    by_cases hg : ty = [] ∨ (ty.head? = some '[' ∧ ty.length = 2)
    · rcases hg with hnil | ⟨hhead, hlen2⟩
      · subst hnil
        simp [decGo, encGo, stmtsOps, stmtOps]
      · rcases ty with _ | ⟨c0, ty'⟩
        · simp at hhead
        · simp only [List.head?_cons, Option.some.injEq] at hhead
          subst hhead
          rcases ty' with _ | ⟨c1, ty''⟩
          · simp at hlen2
          · rcases ty'' with _ | ⟨c2, ty3⟩
            · simp [decGo, encGo, stmtsOps, stmtOps]
            · exfalso
              simp [List.length_cons] at hlen2
    · by_cases hb : ty = str "[]byte"
      · subst hb
        rfl
      · cases hconv : lookupConv ty with
        | some conv =>
          by_cases hd : conv.dec (str "v") = []
          · rw [decGo.eq_def, encGo.eq_def]
            simp [hg, hb, hconv, hd, stmtsOps, stmtOps]
          · rw [decGo.eq_def, encGo.eq_def]
            simp [hg, hb, hconv, hd, stmtsOps, stmtOps]
        | none =>
          rcases ty with _ | ⟨c0, ty'⟩
          · exact absurd (Or.inl rfl) hg
          · by_cases hstar : c0 = '*'
            · subst hstar
              simp [decGo, encGo, hg, hb, hconv, stmtsOps, stmtOps]
            · by_cases hbr : c0 = '['
              · subst hbr
                rcases ty' with _ | ⟨c1, rest⟩
                · simp [decGo, encGo, hg, hb, hconv, hstar, stmtsOps, stmtOps]
                · have hlen' : rest.length ≤ n := by
                    simp only [List.length_cons] at hlen
                    omega
                  have hrest : rest ≠ [] := by
                    intro h
                    subst h
                    exact hg (Or.inr ⟨rfl, rfl⟩)
                  have IH1 := ihn rest hlen' declared (i + 1) (j + 1)
                    (str "t") (str "v")
                  have IH2 := ihn rest hlen' ((str "_arrLen") :: declared)
                    (i + 1) (j + 1) (str "t") (str "v")
                  by_cases hmem : (str "_arrLen") ∈ declared
                  · simp [decGo, encGo, hg, hb, hconv, hstar, hmem, hrest,
                      initType, stmtsOps_append, stmtsOps, stmtOps, IH1]
                  · simp [decGo, encGo, hg, hb, hconv, hstar, hmem, hrest,
                      initType, stmtsOps_append, stmtsOps, stmtOps, IH2]
              · simp [decGo, encGo, hg, hb, hconv, hstar, hbr, stmtsOps, stmtOps]

/-- A registry key is never a two-character type starting with `[`
(the only bracketed key, `[]byte`, has six characters). -/
theorem lookupConv_key (ov : GoStr) (conv : Converter)
    (h : lookupConv ov = some conv) :
    ¬(ov.head? = some '[' ∧ ov.length = 2) := by
  simp only [lookupConv, Option.map_eq_some'] at h
  obtain ⟨p, hp, -⟩ := h
  have hmem := List.mem_of_find?_eq_some hp
  have hpred := List.find?_some hp
  simp only [decide_eq_true_eq] at hpred
  subst hpred
  fin_cases hmem <;> simp [str, NewBasicTypeConverter, ErrorTypeConverter]

/-- Per-field positional parity, overrides included: provided any
override present is registry-resolvable and the declared type is
nonempty, not a bare two-character sequence marker, and not `[]byte`,
the decode emitter performs exactly the encode emitter's wire
operations. -/
theorem ops_parity_field (f : FieldR) (declared : List GoStr) (i j : Nat)
    (h : f.OverrideType ≠ [] →
      (lookupConv f.OverrideType).isSome = true ∧ f.Typ ≠ [] ∧
        ¬(f.Typ.head? = some '[' ∧ f.Typ.length = 2) ∧ f.Typ ≠ str "[]byte") :
    stmtsOps (DecodeField declared i f).1 = stmtsOps (EncodeField j f) := by
  rcases f with ⟨name, ty, ov⟩
  dsimp only at h
  by_cases hov : ov = []
  · subst hov
    simp only [DecodeField, EncodeField, ne_eq, not_true_eq_false, ite_false,
      if_neg (fun h : ¬([] : GoStr) = [] => h rfl)]
    exact ops_parity ty.length ty le_rfl declared i j name name
  · obtain ⟨hsome, hne, hguard, hbyte⟩ := h hov
    rw [Option.isSome_iff_exists] at hsome
    obtain ⟨conv, hconv⟩ := hsome
    have hovguard := lookupConv_key ov conv hconv
    have hgty : ¬(ty = [] ∨ (ty.head? = some '[' ∧ ty.length = 2)) := by
      rintro (h1 | h2)
      · exact hne h1
      · exact hguard h2
    have hgov : ¬(ov = [] ∨ (ov.head? = some '[' ∧ ov.length = 2)) := by
      rintro (h1 | h2)
      · exact hov h1
      · exact hovguard h2
    simp only [DecodeField, EncodeField]
    rw [decGo.eq_def, encGo.eq_def]
    simp [hov, hgty, hgov, hovguard, hbyte, hconv, stmtsOps, stmtOps]

/-- Record-level positional parity over the field loops, for any initial
`_declared` state. -/
theorem ops_parity_fields (r : GoStr) :
    ∀ (fs : List FieldR) (declared : List GoStr),
    (∀ f ∈ fs, f.OverrideType ≠ [] →
      (lookupConv f.OverrideType).isSome = true ∧ f.Typ ≠ [] ∧
        ¬(f.Typ.head? = some '[' ∧ f.Typ.length = 2) ∧ f.Typ ≠ str "[]byte") →
    stmtsOps (decFieldsGo declared r fs).1 =
      stmtsOps ((fs.map (fun f =>
        EncodeField 1 ⟨r ++ '.' :: f.Name, f.Typ, f.OverrideType⟩)).flatten) := by
  intro fs
  induction fs with
  | nil => intro declared h; simp [decFieldsGo, stmtsOps]
  | cons f rest ih =>
    intro declared h
    have hf := h f (List.mem_cons_self f rest)
    have hrest := fun g hg => h g (List.mem_cons_of_mem f hg)
    simp only [decFieldsGo, List.map_cons, List.flatten_cons]
    rw [stmtsOps_append, stmtsOps_append]
    rw [ops_parity_field ⟨r ++ '.' :: f.Name, f.Typ, f.OverrideType⟩ declared 1 1 hf]
    rw [ih ((DecodeField declared 1 ⟨r ++ '.' :: f.Name, f.Typ, f.OverrideType⟩).2) hrest]

/-- `countDecl` distributes over list append. -/
theorem countDecl_append (n : GoStr) (a b : List Stmt) :
    countDecl n (a ++ b) = countDecl n a + countDecl n b := by
  induction a with
  | nil => simp [countDecl]
  | cons s rest ih => simp [countDecl, ih]; omega

/-- `countDeclDirect` distributes over list append. -/
theorem countDeclDirect_append (n : GoStr) (a b : List Stmt) :
    countDeclDirect n (a ++ b) =
      countDeclDirect n a + countDeclDirect n b := by
  induction a with
  | nil => simp [countDeclDirect]
  | cons s rest ih =>
    cases s <;> simp [countDeclDirect, ih] <;> omega

/-- `blocksIn` distributes over list append. -/
theorem blocksIn_append (a b : List Stmt) :
    blocksIn (a ++ b) = blocksIn a ++ blocksIn b := by
  induction a with
  | nil => simp [blocksIn]
  | cons s rest ih => simp [blocksIn, ih]

/-- How one field's decode emission treats the shared `_arrLen`
declaration: with `_arrLen` already tracked it emits no declaration and
keeps it tracked; otherwise it either emits none and leaves the tracker
unchanged, or emits exactly one and tracks it. -/
theorem decGo_arrLen_count : ∀ (n : Nat) (ty : GoStr), ty.length ≤ n →
    ∀ (declared : List GoStr) (i : Nat) (name ov : GoStr),
    (if (str "_arrLen") ∈ declared then
      countDecl (str "_arrLen") (decGo declared i name ty ov).1 = 0 ∧
        (str "_arrLen") ∈ (decGo declared i name ty ov).2
    else
      (countDecl (str "_arrLen") (decGo declared i name ty ov).1 = 0 ∧
        (decGo declared i name ty ov).2 = declared) ∨
      (countDecl (str "_arrLen") (decGo declared i name ty ov).1 = 1 ∧
        (str "_arrLen") ∈ (decGo declared i name ty ov).2)) := by
  intro n
  induction n with
  | zero =>
    intro ty hlen declared i name ov
    have hnil : ty = [] := List.length_eq_zero.mp (Nat.le_zero.mp hlen)
    subst hnil
    by_cases hmem : (str "_arrLen") ∈ declared <;>
      simp [decGo, countDecl, countDeclS, hmem]
  | succ n ihn =>
    intro ty hlen declared i name ov
    rw [decGo.eq_def]
    by_cases hg : ty = [] ∨ (ty.head? = some '[' ∧ ty.length = 2)
    · by_cases hmem : (str "_arrLen") ∈ declared <;>
        simp [hg, hmem, countDecl, countDeclS]
    · by_cases hb : ty = str "[]byte"
      · by_cases hmem : (str "_arrLen") ∈ declared <;>
          simp [hg, hb, hmem, countDecl, countDeclS, str]
      · have hne : ty ≠ [] := fun h => hg (Or.inl h)
        cases hconv : lookupConv (if ov = [] then ty else ov) with
        | some conv =>
          by_cases hmem : (str "_arrLen") ∈ declared <;>
            simp [hg, hb, hne, hconv, hmem] <;>
            (repeat' split) <;> simp_all [countDecl, countDeclS]
        | none =>
          by_cases hstar : ty.head? = some '*'
          · by_cases hmem : (str "_arrLen") ∈ declared <;>
              simp [hg, hb, hne, hconv, hstar, hmem, countDecl, countDeclS]
          · rcases ty with _ | ⟨c0, ty'⟩
            · exact absurd (Or.inl rfl) hg
            · by_cases hbr : c0 = '['
              · subst hbr
                rcases ty' with _ | ⟨c1, rest⟩
                · by_cases hmem : (str "_arrLen") ∈ declared <;>
                    simp [hg, hb, hconv, hstar, hmem, countDecl, countDeclS]
                · have hlen' : rest.length ≤ n := by
                    simp only [List.length_cons] at hlen
                    omega
                  have hrest : rest ≠ [] := by
                    intro h
                    subst h
                    exact hg (Or.inr ⟨rfl, rfl⟩)
                  by_cases hmem : (str "_arrLen") ∈ declared
                  · have IH := ihn rest hlen' declared (i + 1) (str "t") []
                    rw [if_pos hmem] at IH
                    have htarr : ¬ (str "t") = (str "_arrLen") := by decide
                    simp [hg, hb, hconv, hstar, hmem, hrest, initType, htarr,
                      countDecl, countDeclS, countDecl_append, IH.1, IH.2]
                  · have IH := ihn rest hlen' ((str "_arrLen") :: declared)
                      (i + 1) (str "t") []
                    rw [if_pos (List.mem_cons_self _ _)] at IH
                    have htarr : ¬ (str "t") = (str "_arrLen") := by decide
                    simp [hg, hb, hconv, hstar, hmem, hrest, initType, htarr,
                      countDecl, countDeclS, countDecl_append, IH.1, IH.2]
              · have hstar' : ¬ c0 = '*' := by simpa using hstar
                by_cases hmem : (str "_arrLen") ∈ declared <;>
                  simp [hg, hb, hconv, hstar', hbr, hmem, countDecl, countDeclS]

/-- Across a record's whole decode body, the shared `_arrLen` length
variable is declared at most once, and not at all when already
tracked. -/
theorem decFields_arrLen (r : GoStr) : ∀ (fs : List FieldR)
    (declared : List GoStr),
    ((str "_arrLen") ∈ declared →
      countDecl (str "_arrLen") (decFieldsGo declared r fs).1 = 0) ∧
    countDecl (str "_arrLen") (decFieldsGo declared r fs).1 ≤ 1 := by
  intro fs
  induction fs with
  | nil => intro declared; simp [decFieldsGo, countDecl]
  | cons f rest ih =>
    intro declared
    simp only [decFieldsGo, countDecl_append]
    have hfield := decGo_arrLen_count f.Typ.length f.Typ le_rfl declared 1
      (r ++ '.' :: f.Name) f.OverrideType
    by_cases hmem : (str "_arrLen") ∈ declared
    · rw [if_pos hmem] at hfield
      obtain ⟨h0, hstate⟩ := hfield
      have := (ih (DecodeField declared 1
        ⟨r ++ '.' :: f.Name, f.Typ, f.OverrideType⟩).2).1 hstate
      simp [DecodeField] at h0 this ⊢
      omega
    · rw [if_neg hmem] at hfield
      rcases hfield with ⟨h0, hstate⟩ | ⟨h1, hstate⟩
      · have hrest := ih (DecodeField declared 1
          ⟨r ++ '.' :: f.Name, f.Typ, f.OverrideType⟩).2
        simp only [DecodeField] at h0 hstate hrest ⊢
        rw [hstate, h0]
        refine ⟨fun hmem' => absurd hmem' hmem, ?_⟩
        have := (ih declared).2
        omega
      · have hrest := (ih (DecodeField declared 1
          ⟨r ++ '.' :: f.Name, f.Typ, f.OverrideType⟩).2).1
        simp only [DecodeField] at h1 hstate hrest ⊢
        rw [h1, hrest hstate]
        exact ⟨fun hmem' => absurd hmem' hmem, by norm_num⟩

/-- In one field's decode emission the element temp `t` is never
declared at the emission's own block level, and every loop body inside
declares it at most once directly. -/
theorem decGo_blocks : ∀ (n : Nat) (ty : GoStr), ty.length ≤ n →
    ∀ (declared : List GoStr) (i : Nat) (name ov : GoStr),
    countDeclDirect (str "t") (decGo declared i name ty ov).1 = 0 ∧
    (∀ b ∈ blocksIn (decGo declared i name ty ov).1,
      countDeclDirect (str "t") b ≤ 1) := by
  intro n
  induction n with
  | zero =>
    intro ty hlen declared i name ov
    have hnil : ty = [] := List.length_eq_zero.mp (Nat.le_zero.mp hlen)
    subst hnil
    simp [decGo, countDeclDirect, blocksIn, blocksS]
  | succ n ihn =>
    intro ty hlen declared i name ov
    rw [decGo.eq_def]
    by_cases hg : ty = [] ∨ (ty.head? = some '[' ∧ ty.length = 2)
    · simp [hg, countDeclDirect, blocksIn, blocksS]
    · by_cases hb : ty = str "[]byte"
      · simp [hg, hb, countDeclDirect, blocksIn, blocksS, str]
      · cases hconv : lookupConv (if ov = [] then ty else ov) with
        | some conv =>
          refine ⟨?_, ?_⟩ <;>
            simp [hg, hb, hconv] <;>
            (repeat' split) <;>
            simp_all [countDeclDirect, blocksIn, blocksS]
        | none =>
          have hne : ty ≠ [] := fun h => hg (Or.inl h)
          by_cases hstar : ty.head? = some '*'
          · simp [hg, hb, hne, hconv, hstar, countDeclDirect, blocksIn, blocksS]
          · rcases ty with _ | ⟨c0, ty'⟩
            · exact absurd (Or.inl rfl) hg
            · by_cases hbr : c0 = '['
              · subst hbr
                rcases ty' with _ | ⟨c1, rest⟩
                · simp [hg, hb, hconv, hstar, countDeclDirect, blocksIn,
                    blocksS]
                · have hlen' : rest.length ≤ n := by
                    simp only [List.length_cons] at hlen
                    omega
                  have hrest : rest ≠ [] := by
                    intro h
                    subst h
                    exact hg (Or.inr ⟨rfl, rfl⟩)
                  rw [← decGo.eq_def,
                    decGo_list_ov declared i name ov c1 rest hrest hb hconv]
                  have IH := ihn rest hlen'
                    (if (str "_arrLen") ∈ declared then declared
                      else (str "_arrLen") :: declared) (i + 1) (str "t") []
                  refine ⟨?_, ?_⟩
                  · have harrt : ¬ (str "_arrLen") = (str "t") := by decide
                    by_cases hmem : (str "_arrLen") ∈ declared <;>
                      simp [hmem, harrt, countDeclDirect_append,
                        countDeclDirect]
                  · intro b hbmem
                    rw [blocksIn_append] at hbmem
                    have hbmem' : b = (Stmt.varDecl (str "t")
                        (goTrim (str "[]") ('[' :: c1 :: rest)) ::
                          (decGo (if (str "_arrLen") ∈ declared then declared
                            else (str "_arrLen") :: declared) (i + 1)
                            (str "t") rest []).1 ++ [.appendStmt name (str "t")]) ∨
                        b ∈ blocksIn (decGo (if (str "_arrLen") ∈ declared
                          then declared else (str "_arrLen") :: declared)
                          (i + 1) (str "t") rest []).1 := by
                      by_cases hmem : (str "_arrLen") ∈ declared <;>
                        simpa [hmem, blocksIn, blocksS, blocksIn_append]
                          using hbmem
                    rcases hbmem' with hbody | hinner
                    · subst hbody
                      simp [countDeclDirect_append, countDeclDirect, IH.1]
                    · exact IH.2 b hinner
              · have hstar2 : ¬ c0 = '*' := by simpa using hstar
                simp [hg, hb, hne, hconv, hstar2, hbr, countDeclDirect,
                  blocksIn, blocksS]

/-- Record-level version of `decGo_blocks`, over the decode field loop. -/
theorem decFields_blocks (r : GoStr) : ∀ (fs : List FieldR)
    (declared : List GoStr),
    countDeclDirect (str "t") (decFieldsGo declared r fs).1 = 0 ∧
    ∀ b ∈ blocksIn (decFieldsGo declared r fs).1,
      countDeclDirect (str "t") b ≤ 1 := by
  intro fs
  induction fs with
  | nil => intro declared; simp [decFieldsGo, countDeclDirect, blocksIn]
  | cons f rest ih =>
    intro declared
    simp only [decFieldsGo]
    have hf := decGo_blocks f.Typ.length f.Typ le_rfl declared 1
      (r ++ '.' :: f.Name) f.OverrideType
    have hr := ih (DecodeField declared 1
      ⟨r ++ '.' :: f.Name, f.Typ, f.OverrideType⟩).2
    simp only [DecodeField] at hr
    constructor
    · simp [DecodeField, countDeclDirect_append, hf.1, hr.1]
    · intro b hbmem
      simp only [DecodeField] at hbmem
      rw [blocksIn_append] at hbmem
      rcases List.mem_append.mp hbmem with h | h
      · exact hf.2 b h
      · exact hr.2 b h

/-- The extraction loop succeeds with an empty field list when every raw
field has a first name and each is skipped. -/
theorem collectFields_skip : ∀ (l : List RawField),
    (l.all fun rf => match rf.names with
      | [] => false
      | n0 :: _ => (mkField n0 rf).isNone) = true →
    collectFields l = some [] := by
  intro l
  induction l with
  | nil => intro h; rfl
  | cons rf rest ih =>
    intro h
    simp only [List.all_cons, Bool.and_eq_true] at h
    obtain ⟨hhead, hrest⟩ := h
    cases hn : rf.names with
    | nil => rw [hn] at hhead; simp at hhead
    | cons n0 ns =>
      rw [hn] at hhead
      simp only [Option.isNone_iff_eq_none] at hhead
      simp [collectFields, hn, ih hrest, hhead]

/-- The extraction loop never panics when every raw field has at least
one name. -/
theorem collectFields_ne_none : ∀ (l : List RawField),
    (∀ rf ∈ l, rf.names ≠ []) → collectFields l ≠ none := by
  intro l
  induction l with
  | nil => intro _ h; cases h
  | cons rf rest ih =>
    intro h
    cases hn : rf.names with
    | nil => exact absurd hn (h rf (List.mem_cons_self rf rest))
    | cons n0 ns =>
      have hrest := ih (fun g hg => h g (List.mem_cons_of_mem rf hg))
      cases hc : collectFields rest with
      | none => exact absurd hc hrest
      | some fs =>
        simp only [collectFields, hn, hc]
        cases mkField n0 rf <;> simp

/-- The extraction loop panics as soon as some raw field has an empty
name list. -/
theorem collectFields_none : ∀ (l : List RawField),
    (∃ rf ∈ l, rf.names = []) → collectFields l = none := by
  intro l
  induction l with
  | nil => rintro ⟨rf, h, -⟩; cases h
  | cons rf rest ih =>
    rintro ⟨g, hg, hnil⟩
    rcases List.mem_cons.mp hg with rfl | hmem
    · simp [collectFields, hnil]
    · cases hn : rf.names with
      | nil => simp [collectFields, hn]
      | cons n0 ns =>
        simp only [collectFields, hn, ih ⟨g, hmem, hnil⟩]

/-- Struct declarations that are all skipped produce an empty struct
list. -/
theorem collectStructs_skip : ∀ (objs : List RawStruct),
    (∀ rs ∈ objs, noEligible rs = true) → collectStructs objs = some [] := by
  intro objs
  induction objs with
  | nil => intro h; rfl
  | cons rs rest ih =>
    intro h
    have h1 : GetStructFields rs = .skipped := by
      have := collectFields_skip rs.fields (h rs (List.mem_cons_self rs rest))
      simp [GetStructFields, this]
    simp [collectStructs, h1, ih (fun g hg => h g (List.mem_cons_of_mem rs hg))]

/-! ### Claim theorems -/

/-- C1: Round-trip law.  For every record whose fields take the six
supported field-type combinations (registry primitive, raw byte block,
registry-resolvable override on a bare named declared type,
pointer-to-record, list-of-primitive, list-of-pointer — `Supported`),
running the generated encode on a populated value and the generated
decode (modelled by `encValFields` / `decValFields`, which mirror
`EncodeField` / `DecodeField` branch for branch) on the resulting wire
yields the original values field for field, leaving the rest of the
stream untouched.  Value transforms of converters and override casts are
payload-preserving in the model; for the error converter the payload is
the error's message, the documented wire representation. -/
theorem C1_round_trip (fuel : Nat) (fields : List Shape) (vs : List Val)
    (w rest : List Tok) (hsup : allSupported fields = true)
    (henc : encValFields fuel fields vs = some w) :
    decValFields fuel fields (w ++ rest) = some (vs, rest) :=
  (round_trip_aux fuel).2.1 fields vs w rest hsup henc

/-- Witness for C1 on a record covering all six combinations. -/
theorem C1_round_trip_witness :
    allSupported demoShapes = true ∧
    encValFields 30 demoShapes demoVals = some demoWire ∧
    decValFields 30 demoShapes (demoWire ++ []) = some (demoVals, []) :=
  ⟨by decide, rfl,
   C1_round_trip 30 demoShapes demoVals demoWire [] (by decide) rfl⟩

/-- C2 (amended): positional integrity holds for every record provided
each field carrying an override has a registry-resolvable override and a
declared type that is nonempty, not a bare two-character sequence
marker, and not `[]byte`.  Under that proviso the decode body performs
exactly the encode body's wire operations in the same order (both loops
visit the fields once, in declaration order), and per field the decode
emission's operations equal the encode emission's — in particular a
field skipped on one side is skipped on the other.  (Without the
proviso the claim fails: see `C2_counterexample`.) -/
theorem C2_positional_integrity (s : StructR)
    (h : ∀ f ∈ s.Fields, f.OverrideType ≠ [] →
      (lookupConv f.OverrideType).isSome = true ∧ f.Typ ≠ [] ∧
        ¬(f.Typ.head? = some '[' ∧ f.Typ.length = 2) ∧
        f.Typ ≠ str "[]byte") :
    stmtsOps (DecodeFunc s) = stmtsOps (EncodeFunc s) ∧
    ∀ f ∈ s.Fields, ∀ (declared : List GoStr) (i j : Nat),
      stmtsOps (DecodeField declared i f).1 = stmtsOps (EncodeField j f) := by
  constructor
  · simp only [DecodeFunc, EncodeFunc]
    exact ops_parity_fields (fnRef s) s.Fields [] h
  · intro f hf declared i j
    exact ops_parity_field f declared i j (h f hf)

/-- Witness for C2 on a record with two list fields and no overrides. -/
theorem C2_positional_integrity_witness :
    (∀ f ∈ twoListStruct.Fields, f.OverrideType ≠ [] →
      (lookupConv f.OverrideType).isSome = true ∧ f.Typ ≠ [] ∧
        ¬(f.Typ.head? = some '[' ∧ f.Typ.length = 2) ∧
        f.Typ ≠ str "[]byte") ∧
    stmtsOps (DecodeFunc twoListStruct) = stmtsOps (EncodeFunc twoListStruct) :=
  ⟨by decide, (C2_positional_integrity twoListStruct (by decide)).1⟩

/-- C2 as frozen is false on the code: four eligible fields on which the
decode emission's wire operations differ from the encode emission's.
With declared type `""` or `"[]"` and a resolvable override, encode
writes a `String` value while decode emits nothing (a skip on one side
only); with declared type `[]byte` and a resolvable override, encode
writes via `String` but decode reads via `Bytes` (the `[]byte` special
case precedes the override); with a pointer declared type and an
unresolvable override, encode emits only a comment while decode emits a
delegated nested decode. -/
theorem C2_counterexample :
    stmtsOps (EncodeField 1 ⟨str "F", [], str "string"⟩) =
      [.prim (str "String")] ∧
    stmtsOps (DecodeField [] 1 ⟨str "F", [], str "string"⟩).1 = [] ∧
    stmtsOps (EncodeField 1 ⟨str "F", str "[]", str "string"⟩) =
      [.prim (str "String")] ∧
    stmtsOps (DecodeField [] 1 ⟨str "F", str "[]", str "string"⟩).1 = [] ∧
    stmtsOps (EncodeField 1 ⟨str "F", str "[]byte", str "string"⟩) =
      [.prim (str "String")] ∧
    stmtsOps (DecodeField [] 1 ⟨str "F", str "[]byte", str "string"⟩).1 =
      [.prim (str "Bytes")] ∧
    stmtsOps (EncodeField 1 ⟨str "F", str "*User", str "zz"⟩) = [] ∧
    stmtsOps (DecodeField [] 1 ⟨str "F", str "*User", str "zz"⟩).1 =
      [.nested] :=
  ⟨rfl, rfl, rfl, rfl, rfl, rfl, rfl, rfl⟩

/-- C3: the code is wrong on nested lists.  For the failing input — a
field of type `[][]int64` — the emitted decode (i) re-reads the shared
`_arrLen` inside the outer loop that `_arrLen` itself bounds, so the
outer loop does not iterate the outer element count; (ii) declares the
temp `t` at both nesting levels with the innermost element type
`int64` (`initType` trims every bracket), though the outer temp must
hold a `[]int64`; and (iii) appends `t` to itself in the inner loop
(`t = append(t, t)`), because `initType` always names the temp `t`
(its own doc comment promises a unique name per type, but that naming
is commented out).  The generated Go does not compile, let alone
reconstruct what the (well-formed) encode wrote. -/
theorem C3_nested_list_bug :
    DecodeField [] 1 ⟨str "X", str "[][]int64", []⟩ =
      ([.varDecl (str "_arrLen") (str "int"),
        .decAssign (str "_arrLen") (str "Int"),
        .makeCap (str "X") (str "[][]int64") (str "_arrLen"),
        .forCount (str "_arrLen")
          [.varDecl (str "t") (str "int64"),
           .decAssign (str "_arrLen") (str "Int"),
           .makeCap (str "t") (str "[]int64") (str "_arrLen"),
           .forCount (str "_arrLen")
             [.varDecl (str "t") (str "int64"),
              .decAssign (str "t") (str "Int64"),
              .appendStmt (str "t") (str "t")],
           .appendStmt (str "X") (str "t")]], [str "_arrLen"]) ∧
    stmtsHave (.appendStmt (str "t") (str "t"))
      (DecodeField [] 1 ⟨str "X", str "[][]int64", []⟩).1 = true ∧
    countDecl (str "t") (DecodeField [] 1 ⟨str "X", str "[][]int64", []⟩).1
      = 2 ∧
    EncodeField 1 ⟨str "X", str "[][]int64", []⟩ =
      [.encLen (str "X"),
       .forRange (str "v") (str "X")
         [.encLen (str "v"),
          .forRange (str "v") (str "v") [.encCall (str "Int64") (str "v")]]] :=
  ⟨rfl, rfl, rfl, rfl⟩

/-- C4 (amended): the decode emitter declares the element temp `t` once
per list field, inside that field's own per-element loop body — not once
per distinct element type — so every block scope of a generated decode
body holds at most one direct `t` declaration and no two declarations
ever share a scope (no Go redeclaration conflict), whatever the record.
(The frozen "at most once per distinct element type" is refuted by
`C4_counterexample`.) -/
theorem C4_no_conflicting_temp_decls (s : StructR) :
    ∀ b ∈ blocks (DecodeFunc s), countDeclDirect (str "t") b ≤ 1 := by
  intro b hb
  have h := decFields_blocks (fnRef s) s.Fields []
  simp only [blocks, DecodeFunc] at hb
  rcases List.mem_cons.mp hb with rfl | hb2
  · simp only [DecodeFunc, h.1]
    omega
  · exact h.2 b hb2

/-- Witness for C4 on the two-list record, at its top-level block. -/
theorem C4_no_conflicting_temp_decls_witness :
    (DecodeFunc twoListStruct) ∈ blocks (DecodeFunc twoListStruct) ∧
    countDeclDirect (str "t") (DecodeFunc twoListStruct) ≤ 1 :=
  ⟨List.mem_cons_self _ _,
   C4_no_conflicting_temp_decls twoListStruct _ (List.mem_cons_self _ _)⟩

/-- C4 as frozen is false on the code: two sibling `[]int64` fields make
the generated decode body declare the temp `t` twice (once inside each
field's loop) — not at most once for the element type `int64`. -/
theorem C4_counterexample :
    DecodeFunc twoListStruct =
      [.varDecl (str "_arrLen") (str "int"),
       .decAssign (str "_arrLen") (str "Int"),
       .makeCap (str "s.A") (str "[]int64") (str "_arrLen"),
       .forCount (str "_arrLen")
         [.varDecl (str "t") (str "int64"),
          .decAssign (str "t") (str "Int64"),
          .appendStmt (str "s.A") (str "t")],
       .decAssign (str "_arrLen") (str "Int"),
       .makeCap (str "s.B") (str "[]int64") (str "_arrLen"),
       .forCount (str "_arrLen")
         [.varDecl (str "t") (str "int64"),
          .decAssign (str "t") (str "Int64"),
          .appendStmt (str "s.B") (str "t")]] ∧
    countDecl (str "t") (DecodeFunc twoListStruct) = 2 ∧
    ¬ countDecl (str "t") (DecodeFunc twoListStruct) ≤ 1 :=
  ⟨rfl, rfl, by decide⟩

/-- C5: list fields (element type not raw bytes).  (i) The encode
emission is an integer length prefix `enc.Int(len(f))` followed by a
per-element loop over the synthetic binding `v`; (ii) the decode
emission declares the shared `_arrLen` only when not yet declared in
this record body, reads the length into `_arrLen`, allocates the field
itself as the accumulator with capacity `_arrLen` (the value just
read), and per loop iteration decodes one element into the temp and
appends it to the field by assignment (`f = append(f, t)`); (iii) on
the wire, the length prefix written equals the actual element count;
(iv) across any record's whole decode body the shared `_arrLen` is
declared at most once and reused by every list field. -/
theorem C5_list_field (declared : List GoStr) (i : Nat) (name : GoStr)
    (c1 : Char) (ety : GoStr) (hety : ety ≠ [])
    (hb : '[' :: c1 :: ety ≠ str "[]byte") :
    EncodeField i ⟨name, '[' :: c1 :: ety, []⟩ =
      [.encLen name,
       .forRange (str "v") name (EncodeField (i + 1) ⟨str "v", ety, []⟩)] ∧
    DecodeField declared i ⟨name, '[' :: c1 :: ety, []⟩ =
      ((if (str "_arrLen") ∈ declared then []
        else [Stmt.varDecl (str "_arrLen") (str "int")]) ++
        [.decAssign (str "_arrLen") (str "Int"),
         .makeCap name ('[' :: c1 :: ety) (str "_arrLen"),
         .forCount (str "_arrLen")
           (Stmt.varDecl (str "t") (goTrim (str "[]") ('[' :: c1 :: ety)) ::
             (DecodeField (if (str "_arrLen") ∈ declared then declared
                else (str "_arrLen") :: declared) (i + 1)
                ⟨str "t", ety, []⟩).1
             ++ [.appendStmt name (str "t")])],
       (DecodeField (if (str "_arrLen") ∈ declared then declared
          else (str "_arrLen") :: declared) (i + 1) ⟨str "t", ety, []⟩).2) ∧
    (∀ (fuel : Nat) (elem : Shape) (es : List Val) (w : List Tok),
      encVal fuel (.list elem) (.vlist es) = some w →
      w.head? = some (str "Int", es.length)) ∧
    (∀ s : StructR, countDecl (str "_arrLen") (DecodeFunc s) ≤ 1) := by
  refine ⟨?_, ?_, ?_, ?_⟩
  · have hconv := lookupConv_bracket (c1 :: ety) hb
    simp only [EncodeField]
    rw [encGo.eq_def]
    simp [hety, hb, hconv]
  · simpa only [DecodeField] using decGo_list declared i name c1 ety hety hb
  · intro fuel elem es w henc
    cases fuel with
    | zero => simp [encVal] at henc
    | succ f =>
      simp only [encVal] at henc
      cases helems : encValElems f elem es with
      | none => rw [helems] at henc; cases henc
      | some w' => rw [helems] at henc; cases henc; rfl
  · intro s
    simpa only [DecodeFunc] using (decFields_arrLen (fnRef s) s.Fields []).2

/-- Witness for C5 on `Numbers []int64`. -/
theorem C5_list_field_witness :
    (str "int64" ≠ ([] : GoStr)) ∧
    ('[' :: ']' :: str "int64" ≠ str "[]byte") ∧
    EncodeField 1 ⟨str "p.Numbers", '[' :: ']' :: str "int64", []⟩ =
      [.encLen (str "p.Numbers"),
       .forRange (str "v") (str "p.Numbers")
         (EncodeField (1 + 1) ⟨str "v", str "int64", []⟩)] :=
  ⟨by decide, by decide,
   (C5_list_field [] 1 (str "p.Numbers") ']' (str "int64")
     (by decide) (by decide)).1⟩

/-- C6: a `[]byte` field is encoded by exactly one atomic `enc.Bytes`
call — no length prefix, no loop — and decoded by one mirroring
`dec.Bytes` call (preceded only by the non-wire allocation
`make([]byte, 0)`): one `Bytes` wire operation on each side. -/
theorem C6_byte_block (name : GoStr) (i : Nat) (declared : List GoStr) :
    EncodeField i ⟨name, str "[]byte", []⟩ =
      [.encCall (str "Bytes") name] ∧
    DecodeField declared i ⟨name, str "[]byte", []⟩ =
      ([.makeBytes name, .decBytes name], declared) ∧
    stmtsOps (EncodeField i ⟨name, str "[]byte", []⟩) =
      [.prim (str "Bytes")] ∧
    stmtsOps (DecodeField declared i ⟨name, str "[]byte", []⟩).1 =
      [.prim (str "Bytes")] :=
  ⟨rfl, rfl, rfl, rfl⟩

/-- C7 (amended): for a field with a registry-resolvable override on a
declared type that is nonempty, not a bare sequence marker, and not
`[]byte`, the override fully replaces the dispatch type on both paths:
encode wraps the value in the override cast and invokes the override's
converter (`enc.Op(ovEnc(ov(f)))`); decode invokes the override's
converter, applies its decode transform (raw `v` when the transform is
identity), and casts the result back to the declared type before
assigning.  (On a declared `[]byte` the decode path ignores the
override — see `C7_counterexample`.) -/
theorem C7_override (f : FieldR) (conv : Converter)
    (declared : List GoStr) (i j : Nat)
    (hov : f.OverrideType ≠ [])
    (hconv : lookupConv f.OverrideType = some conv)
    (hne : f.Typ ≠ [])
    (hguard : ¬(f.Typ.head? = some '[' ∧ f.Typ.length = 2))
    (hbyte : f.Typ ≠ str "[]byte") :
    EncodeField j f =
      [.encCall conv.enkodoFunction
        (conv.enc (f.OverrideType ++ '(' :: f.Name ++ [')']))] ∧
    DecodeField declared i f =
      ([.decTransform conv.enkodoFunction f.Name
        (f.Typ ++ '(' :: (if conv.dec (str "v") = [] then str "v"
          else conv.dec (str "v")) ++ [')'])], declared) := by
  rcases f with ⟨name, ty, ov⟩
  dsimp only at hov hconv hne hguard hbyte ⊢
  have hovguard := lookupConv_key ov conv hconv
  have hgty : ¬(ty = [] ∨ (ty.head? = some '[' ∧ ty.length = 2)) := by
    rintro (h1 | h2)
    · exact hne h1
    · exact hguard h2
  have hgov : ¬(ov = [] ∨ (ov.head? = some '[' ∧ ov.length = 2)) := by
    rintro (h1 | h2)
    · exact hov h1
    · exact hovguard h2
  constructor
  · simp only [EncodeField]
    rw [encGo.eq_def]
    simp [hov, hgov, hovguard, hconv]
  · simp only [DecodeField]
    rw [decGo.eq_def]
    simp [hov, hgty, hbyte, hconv]

/-- Witness for C7 on `Twitter SocialMedia` overridden to `string`. -/
theorem C7_override_witness :
    lookupConv (str "string") =
      some (NewBasicTypeConverter "string" "String") ∧
    DecodeField [] 1 ⟨str "Twitter", str "SocialMedia", str "string"⟩ =
      ([.decTransform (str "String") (str "Twitter")
        (str "SocialMedia(v)")], []) :=
  ⟨rfl,
   (C7_override ⟨str "Twitter", str "SocialMedia", str "string"⟩
     (NewBasicTypeConverter "string" "String") [] 1 1
     (by decide) rfl (by decide) (by decide) (by decide)).2⟩

/-- C7 as frozen is false on the code: on a `[]byte` field with the
registry-resolvable override `string`, encode dispatches via the
override (`enc.String(string(Data))`) but decode dispatches on the
declared type (`dec.Bytes`) — the `[]byte` special case precedes the
override, so the override does not replace the effective type on the
decode path. -/
theorem C7_counterexample :
    EncodeField 1 ⟨str "Data", str "[]byte", str "string"⟩ =
      [.encCall (str "String") (str "string(Data)")] ∧
    DecodeField [] 1 ⟨str "Data", str "[]byte", str "string"⟩ =
      ([.makeBytes (str "Data"), .decBytes (str "Data")], []) ∧
    stmtsOps (DecodeField [] 1 ⟨str "Data", str "[]byte", str "string"⟩).1 =
      [.prim (str "Bytes")] :=
  ⟨rfl, rfl, rfl⟩

/-- C8: the code is wrong about import aggregation.  For a unit whose
single struct has one field `Errs []error` tagged for generation, the
emitted decode invokes the error converter for the list's element type
— the generated code contains `t = errors.New(v)` — yet the import scan
(which inspects only top-level override-or-declared field types, and
`[]error` is not a registry key) yields only the base codec dependency:
`errors` is missing and the artifact cannot compile. -/
theorem C8_import_bug :
    genImports (objectsInFile (str "main") errListUnit) = [packageNameStr] ∧
    (str "errors") ∉ genImports (objectsInFile (str "main") errListUnit) ∧
    stmtsHave (.decTransform (str "String") (str "t") (str "errors.New(v)"))
      (genCode (objectsInFile (str "main") errListUnit)) = true :=
  ⟨rfl, by decide, rfl⟩

/-- C9: a struct declaration none of whose fields is eligible extracts
to `nil` (no procedures are generated for it), and a unit all of whose
struct declarations have zero eligible fields produces no artifact at
all. -/
theorem C9_zero_eligible :
    (∀ rs : RawStruct, noEligible rs = true →
      GetStructFields rs = .skipped) ∧
    (∀ (pkg : GoStr) (objs : List RawStruct),
      (∀ rs ∈ objs, noEligible rs = true) →
      objectsInFile pkg objs = .noArtifact) := by
  constructor
  · intro rs h
    have := collectFields_skip rs.fields h
    simp [GetStructFields, this]
  · intro pkg objs h
    have := collectStructs_skip objs h
    simp [objectsInFile, this]

/-- Witness for C9 on a struct with one unexported tagged field and one
exported untagged field. -/
theorem C9_zero_eligible_witness :
    noEligible c9demo = true ∧
    GetStructFields c9demo = .skipped ∧
    objectsInFile (str "main") [c9demo] = .noArtifact :=
  ⟨by decide,
   C9_zero_eligible.1 c9demo (by decide),
   C9_zero_eligible.2 (str "main") [c9demo] (by decide)⟩

/-- C10: field extraction indexes `field.Names[0]` unconditionally,
before even the tag check.  It cannot panic exactly when every field
declaration has at least one name; a struct with an embedded
(anonymous, hence nameless) field makes extraction fail with the
index-out-of-range panic instead of skipping the field — even untagged;
and for a multi-name declaration (`A, B int`) only the first name is
considered: the extracted struct has a field `A` and nothing for `B`. -/
theorem C10_names_indexing :
    (∀ rs : RawStruct, (∀ rf ∈ rs.fields, rf.names ≠ []) →
      GetStructFields rs ≠ .panicked) ∧
    (∀ rs : RawStruct, (∃ rf ∈ rs.fields, rf.names = []) →
      GetStructFields rs = .panicked) ∧
    GetStructFields embeddedDemo = .panicked ∧
    GetStructFields multiNameDemo =
      .ok ⟨str "S", [⟨str "A", str "int", []⟩]⟩ := by
  refine ⟨?_, ?_, rfl, rfl⟩
  · intro rs h
    cases hc : collectFields rs.fields with
    | none => exact absurd hc (collectFields_ne_none rs.fields h)
    | some fs => cases fs <;> simp [GetStructFields, hc]
  · intro rs hex
    have := collectFields_none rs.fields hex
    simp [GetStructFields, this]

/-- Witness for C10 on the multi-name struct declaration. -/
theorem C10_names_indexing_witness :
    (∀ rf ∈ multiNameDemo.fields, rf.names ≠ []) ∧
    GetStructFields multiNameDemo ≠ .panicked :=
  ⟨by decide, C10_names_indexing.1 multiNameDemo (by decide)⟩

end Enkodo
